import Mathlib

/-!
Verification development for the probabilistic data-structures library
demonstrated by `approx.ipynb`: five sketch structures (HyperLogLog,
Bloom filter, MinHash, Count-Min Sketch, t-Digest) plus the notebook's
word-cleaning helper.  The five structures live in external libraries,
so their operations are modelled from the specification; `clean_words`
is embedded directly from the notebook source.
-/

/-- The error kinds declared by the specification (section 7). -/
inductive Err where
  | InvalidConfig
  | IncompatibleMerge
  | EmptyDigest
  | MalformedInput
deriving DecidableEq

/-- ASCII-letter test, the character class `[A-Za-z]` of the notebook's
regular expression. -/
def isAsciiLetter (c : Char) : Bool :=
  (65 ≤ c.toNat && c.toNat ≤ 90) || (97 ≤ c.toNat && c.toNat ≤ 122)

/-- Embeds `re.sub("[^A-Za-z]", " ", text)`: every non-letter character is
replaced by a space. -/
def subLetters (s : List Char) : List Char :=
  s.map (fun c => if isAsciiLetter c then c else ' ')

/-- Embeds Python `str.split(" ")`: split on every single space character,
keeping empty fragments (they are filtered out afterwards). -/
def splitSpace : List Char → List (List Char)
  | [] => [[]]
  | c :: rest =>
    if c = ' ' then [] :: splitSpace rest
    else
      match splitSpace rest with
      | [] => [[c]]
      | w :: ws => (c :: w) :: ws

/-- Embeds `clean_words` from the notebook:
`filter(lambda x: len(x) > 0, re.sub("[^A-Za-z]", " ", text).split(" "))`. -/
def clean_words (text : List Char) : List (List Char) :=
  (splitSpace (subLetters text)).filter (fun w => w.length > 0)

/-- Modelled from the spec: the Bloom filter of the external `pybloom`
library (missing from the repository; only its caller is in the notebook).
State is a bit array of size `n_bits` plus `k` hash seeds (section 4.3). -/
structure BloomFilter where
  n_bits : Nat
  k : Nat
  bits : List Bool
deriving DecidableEq

/-- Set one bit of the bit array. -/
def setBit (l : List Bool) (i : Nat) : List Bool := l.set i true

/-- Modelled from the spec: the `k` hash positions of an item, one per seed,
each reduced modulo `n_bits`. -/
def bfPositions {α : Type} (hash : Nat → α → Nat) (bf : BloomFilter) (x : α) :
    List Nat :=
  (List.range bf.k).map (fun seed => hash seed x % bf.n_bits)

/-- Modelled from the spec: `add(item)` computes the `k` hash positions and
sets those bits. -/
def bfAdd {α : Type} (hash : Nat → α → Nat) (bf : BloomFilter) (x : α) :
    BloomFilter :=
  { bf with bits := (bfPositions hash bf x).foldl setBit bf.bits }

/-- Modelled from the spec: `contains(item)` is true iff all `k` positions
are set. -/
def bfContains {α : Type} (hash : Nat → α → Nat) (bf : BloomFilter) (x : α) :
    Bool :=
  (bfPositions hash bf x).all (fun i => bf.bits.getD i false)

/-- A whole stream of `add` operations. -/
def bfAddAll {α : Type} (hash : Nat → α → Nat) (bf : BloomFilter)
    (xs : List α) : BloomFilter :=
  xs.foldl (bfAdd hash) bf

/-- Modelled from the spec: the Count-Min Sketch of the external `yacms`
library (missing from the repository; only its caller is in the notebook).
State is a 2-D counter array of `depth` rows and `width` columns
(section 4.5). -/
structure CountMinSketch where
  width : Nat
  depth : Nat
  table : List (List Nat)
deriving DecidableEq

/-- Add `inc` to the counter at column `j` of one row. -/
def bump (row : List Nat) (j : Nat) (inc : Nat) : List Nat :=
  row.set j (row.getD j 0 + inc)

/-- Modelled from the spec: for each row `r` (hashed with its own seed),
increment the counter at `hash r item % width`. -/
def updRows {α : Type} (hash : Nat → α → Nat) (width : Nat) (x : α)
    (inc : Nat) : Nat → List (List Nat) → List (List Nat)
  | _, [] => []
  | r, row :: rest =>
    bump row (hash r x % width) inc :: updRows hash width x inc (r + 1) rest

/-- Modelled from the spec: `update(item, increment)` over all rows. -/
def cmsUpdate {α : Type} (hash : Nat → α → Nat) (cms : CountMinSketch)
    (x : α) (inc : Nat) : CountMinSketch :=
  { cms with table := updRows hash cms.width x inc 0 cms.table }

/-- The counter mapped by `item` in each row. -/
def rowVals {α : Type} (hash : Nat → α → Nat) (width : Nat) (x : α) :
    Nat → List (List Nat) → List Nat
  | _, [] => []
  | r, row :: rest =>
    row.getD (hash r x % width) 0 :: rowVals hash width x (r + 1) rest

/-- Minimum of a list of counters (0 on an empty list). -/
def listMin : List Nat → Nat
  | [] => 0
  | v :: vs => vs.foldl min v

/-- Modelled from the spec: `estimate(item)` is the minimum counter value
across the `depth` rows mapped by `item`. -/
def cmsEstimate {α : Type} (hash : Nat → α → Nat) (cms : CountMinSketch)
    (x : α) : Nat :=
  listMin (rowVals hash cms.width x 0 cms.table)

/-- A whole stream of `update` calls. -/
def cmsUpdateAll {α : Type} (hash : Nat → α → Nat) (cms : CountMinSketch)
    (ups : List (α × Nat)) : CountMinSketch :=
  ups.foldl (fun c p => cmsUpdate hash c p.1 p.2) cms

/-- The true accumulated count of an item over a stream of updates. -/
def trueCount {α : Type} [DecidableEq α] (x : α) : List (α × Nat) → Nat
  | [] => 0
  | p :: rest => (if p.1 = x then p.2 else 0) + trueCount x rest

/-- Stream of updates applied at the row level. -/
def updAllRows {α : Type} (hash : Nat → α → Nat) (width : Nat)
    (ups : List (α × Nat)) (rows : List (List Nat)) : List (List Nat) :=
  ups.foldl (fun rs p => updRows hash width p.1 p.2 0 rs) rows

/-- Modelled from the spec: the MinHash signature of the external
`datasketch` library (missing from the repository; only its caller
`mh_digest` is in the notebook).  State is `num_perm` universal-hash
coefficient pairs and an array of `num_perm` minimum hash values
(section 4.4). -/
structure MinHash where
  num_perm : Nat
  coeffs : List (Nat × Nat)
  signature : List Nat
deriving DecidableEq

/-- The number of slots where two signatures hold equal values. -/
def matchCount (s1 s2 : List Nat) : Nat :=
  ((s1.zip s2).filter (fun p => p.1 = p.2)).length

/-- Modelled from the spec: `jaccard(other)` requires equal `num_perm` and
returns (count of agreeing slots) / `num_perm`. -/
def mhJaccard (m1 m2 : MinHash) : Except Err ℚ :=
  if m1.num_perm = m2.num_perm then
    .ok ((matchCount m1.signature m2.signature : ℚ) / (m1.num_perm : ℚ))
  else .error .IncompatibleMerge

/-- Modelled from the spec: the HyperLogLog counter of the external
`hyperloglog` library (missing from the repository; only its caller is in
the notebook).  State is a fixed array of `m` registers (section 4.2). -/
structure HyperLogLog where
  m : Nat
  registers : List Nat
deriving DecidableEq

/-- Doubling loop for `nextPowTwo`, with explicit fuel so that it computes
by structural recursion. -/
def nptAux (n : Nat) : Nat → Nat → Nat
  | 0, acc => acc
  | fuel + 1, acc => if n ≤ acc then acc else nptAux n fuel (2 * acc)

/-- Smallest power of two at least `n` (`next_power_of_two`). -/
def nextPowTwo (n : Nat) : Nat := nptAux n n 1

/-- Modelled from the spec: `create(ε)` validates `0 < ε < 1`, computes
`m = next_power_of_two(ceil((1.04/ε)^2))` and allocates `m` zero registers;
otherwise it fails with `InvalidConfig`. -/
def hllCreate (eps : ℚ) : Except Err HyperLogLog :=
  if 0 < eps ∧ eps < 1 then
    .ok ⟨nextPowTwo (⌈((104 : ℚ) / 100 / eps) ^ 2⌉.toNat),
         List.replicate (nextPowTwo (⌈((104 : ℚ) / 100 / eps) ^ 2⌉.toNat)) 0⟩
  else .error .InvalidConfig

/-- Modelled from the spec: the t-Digest of the external `tdigest` library
(missing from the repository; only its caller is in the notebook).  State
is an ordered sequence of `(mean, weight)` centroids plus the compression
parameter `δ` (sections 3 and 4.6). -/
structure TDigest where
  delta : ℚ
  centroids : List (ℚ × ℚ)
deriving DecidableEq

/-- Total weight of a centroid sequence (= number of samples ingested). -/
def totalWeight (cs : List (ℚ × ℚ)) : ℚ := (cs.map Prod.snd).sum

/-- Cumulative-weight center of each centroid: the running weight before it
plus half its own weight, paired with its mean. -/
def centers (acc : ℚ) : List (ℚ × ℚ) → List (ℚ × ℚ)
  | [] => []
  | (m, w) :: rest => (acc + w / 2, m) :: centers (acc + w) rest

/-- Piecewise-linear interpolation through a list of (position, mean)
points: clamps before the first and after the last point, interpolates
linearly in between. -/
def pwlin (t : ℚ) : List (ℚ × ℚ) → ℚ
  | [] => 0
  | [(_, m)] => m
  | (p1, m1) :: (p2, m2) :: rest =>
    if t ≤ p1 then m1
    else if t ≤ p2 then m1 + (t - p1) / (p2 - p1) * (m2 - m1)
    else pwlin t ((p2, m2) :: rest)

/-- Modelled from the spec: the value `quantile(q)` returns on a non-empty
digest: linear interpolation between centroid means weighted by cumulative
weight. -/
def tdQuantileRaw (td : TDigest) (q : ℚ) : ℚ :=
  pwlin (q * totalWeight td.centroids) (centers 0 td.centroids)

/-- Modelled from the spec: `quantile(q)` fails with `EmptyDigest` if no
samples were added, otherwise interpolates. -/
def tdQuantile (td : TDigest) (q : ℚ) : Except Err ℚ :=
  if td.centroids = [] then .error .EmptyDigest
  else .ok (tdQuantileRaw td q)

/-- Modelled from the spec: `create(compression δ)` starts with no
centroids. -/
def tdCreate (delta : ℚ) : TDigest := ⟨delta, []⟩

/-- Centroid order: by mean, ties broken by weight (a total, antisymmetric
order so that re-sorting after a merge is deterministic). -/
def centLe (a b : ℚ × ℚ) : Prop := a.1 < b.1 ∨ (a.1 = b.1 ∧ a.2 ≤ b.2)

instance : DecidableRel centLe := fun a b => by
  unfold centLe
  exact inferInstance

/-- Index of the centroid whose mean is nearest to a value (scan helper). -/
def nearestAux (value : ℚ) : List (ℚ × ℚ) → Nat → Nat → ℚ → Nat
  | [], _, best, _ => best
  | c :: rest, i, best, bestd =>
    if |c.1 - value| < bestd then nearestAux value rest (i + 1) i |c.1 - value|
    else nearestAux value rest (i + 1) best bestd

/-- Index of the centroid whose mean is nearest to a value. -/
def nearestIdx (value : ℚ) : List (ℚ × ℚ) → Nat
  | [] => 0
  | c :: rest => nearestAux value rest 1 0 |c.1 - value|

/-- Sum of the weights of the first `i` centroids. -/
def cumBefore (cs : List (ℚ × ℚ)) (i : Nat) : ℚ :=
  ((cs.take i).map Prod.snd).sum

/-- Modelled from the spec: `add(value, weight)` locates the nearest
centroid by mean, merges the sample into it when that keeps the centroid's
weight under the size bound `4·n·δ·k·(1-k)`, and otherwise inserts a new
singleton centroid, keeping the sequence sorted. -/
def tdAdd (td : TDigest) (value weight : ℚ) : TDigest :=
  match td.centroids with
  | [] => ⟨td.delta, [(value, weight)]⟩
  | c0 :: cs0 =>
    if ((c0 :: cs0).getD (nearestIdx value (c0 :: cs0)) (0, 0)).2 + weight ≤
        4 * (totalWeight (c0 :: cs0) + weight) * td.delta *
          ((cumBefore (c0 :: cs0) (nearestIdx value (c0 :: cs0)) +
              ((c0 :: cs0).getD (nearestIdx value (c0 :: cs0)) (0, 0)).2 / 2) /
            (totalWeight (c0 :: cs0) + weight)) *
          (1 - (cumBefore (c0 :: cs0) (nearestIdx value (c0 :: cs0)) +
              ((c0 :: cs0).getD (nearestIdx value (c0 :: cs0)) (0, 0)).2 / 2) /
            (totalWeight (c0 :: cs0) + weight)) then
      ⟨td.delta, List.insertionSort centLe
        ((c0 :: cs0).set (nearestIdx value (c0 :: cs0))
          ((((c0 :: cs0).getD (nearestIdx value (c0 :: cs0)) (0, 0)).1 *
              ((c0 :: cs0).getD (nearestIdx value (c0 :: cs0)) (0, 0)).2 +
              value * weight) /
              (((c0 :: cs0).getD (nearestIdx value (c0 :: cs0)) (0, 0)).2 + weight),
            ((c0 :: cs0).getD (nearestIdx value (c0 :: cs0)) (0, 0)).2 + weight))⟩
    else
      ⟨td.delta, List.orderedInsert centLe (value, weight) (c0 :: cs0)⟩

/-- A whole stream of `add(value, weight)` calls. -/
def tdAddAll (td : TDigest) (samples : List (ℚ × ℚ)) : TDigest :=
  samples.foldl (fun d p => tdAdd d p.1 p.2) td

/-- Modelled from the spec: HLL `merge(other)` requires identical `m` and
takes element-wise max of registers; otherwise `IncompatibleMerge`. -/
def hllMerge (h1 h2 : HyperLogLog) : Except Err HyperLogLog :=
  if h1.m = h2.m then
    .ok ⟨h1.m, List.zipWith max h1.registers h2.registers⟩
  else .error .IncompatibleMerge

/-- Modelled from the spec: Bloom `merge(other)` requires identical
`n_bits`/`k` and takes bitwise OR; otherwise `IncompatibleMerge`. -/
def bfMerge (b1 b2 : BloomFilter) : Except Err BloomFilter :=
  if b1.n_bits = b2.n_bits ∧ b1.k = b2.k then
    .ok ⟨b1.n_bits, b1.k, List.zipWith or b1.bits b2.bits⟩
  else .error .IncompatibleMerge

/-- Modelled from the spec: MinHash `merge(other)` requires identical
`num_perm` and coefficient set and takes element-wise minimum; otherwise
`IncompatibleMerge`. -/
def mhMerge (m1 m2 : MinHash) : Except Err MinHash :=
  if m1.num_perm = m2.num_perm ∧ m1.coeffs = m2.coeffs then
    .ok ⟨m1.num_perm, m1.coeffs, List.zipWith min m1.signature m2.signature⟩
  else .error .IncompatibleMerge

/-- Modelled from the spec: CMS `merge(other)` requires identical
`width`/`depth` and takes element-wise sum; otherwise `IncompatibleMerge`. -/
def cmsMerge (c1 c2 : CountMinSketch) : Except Err CountMinSketch :=
  if c1.width = c2.width ∧ c1.depth = c2.depth then
    .ok ⟨c1.width, c1.depth,
      List.zipWith (List.zipWith (· + ·)) c1.table c2.table⟩
  else .error .IncompatibleMerge

/-- Modelled from the spec: t-Digest `merge(other)` re-inserts all of one
digest's centroids (weighted) into the other; modelled as the re-sorted
union of the two centroid sequences, requiring equal compression `δ`. -/
def tdMerge (t1 t2 : TDigest) : Except Err TDigest :=
  if t1.delta = t2.delta then
    .ok ⟨t1.delta, List.insertionSort centLe (t1.centroids ++ t2.centroids)⟩
  else .error .IncompatibleMerge

/-- Sequencing of two fallible merge steps. -/
def mergeThen {σ : Type} (r : Except Err σ) (f : σ → Except Err σ) :
    Except Err σ :=
  match r with
  | .ok s => f s
  | .error e => .error e

instance : IsTotal (ℚ × ℚ) centLe := by
  constructor
  intro a b
  unfold centLe
  rcases lt_trichotomy a.1 b.1 with hlt | heq | hgt
  · exact Or.inl (Or.inl hlt)
  · rcases le_total a.2 b.2 with hle | hge
    · exact Or.inl (Or.inr ⟨heq, hle⟩)
    · exact Or.inr (Or.inr ⟨heq.symm, hge⟩)
  · exact Or.inr (Or.inl hgt)

instance : IsTrans (ℚ × ℚ) centLe := by
  constructor
  intro a b c hab hbc
  unfold centLe at hab hbc ⊢
  rcases hab with hab | ⟨hab1, hab2⟩
  · rcases hbc with hbc | ⟨hbc1, hbc2⟩
    · exact Or.inl (lt_trans hab hbc)
    · exact Or.inl (hbc1 ▸ hab)
  · rcases hbc with hbc | ⟨hbc1, hbc2⟩
    · exact Or.inl (hab1 ▸ hbc)
    · exact Or.inr ⟨hab1.trans hbc1, hab2.trans hbc2⟩

instance : IsAntisymm (ℚ × ℚ) centLe := by
  constructor
  intro a b hab hba
  unfold centLe at hab hba
  rcases hab with hab | ⟨hab1, hab2⟩
  · rcases hba with hba | ⟨hba1, hba2⟩
    · exact absurd (lt_trans hab hba) (lt_irrefl _)
    · exact absurd hab (hba1 ▸ lt_irrefl _)
  · rcases hba with hba | ⟨hba1, hba2⟩
    · exact absurd hba (hab1 ▸ lt_irrefl _)
    · exact Prod.ext hab1 (le_antisymm hab2 hba2)

/-- Interleave a list of pairs into a flat payload. -/
def flattenPairs {α : Type} : List (α × α) → List α
  | [] => []
  | (a, b) :: rest => a :: b :: flattenPairs rest

/-- Rebuild a list of pairs from a flat payload (two values at a time). -/
def unflattenPairs {α : Type} : List α → List (α × α)
  | [] => []
  | [_] => []
  | a :: b :: rest => (a, b) :: unflattenPairs rest

/-- Split a flat payload back into `d` rows of `w` counters. -/
def chunksOf {α : Type} (w : Nat) : Nat → List α → List (List α)
  | 0, _ => []
  | d + 1, l => l.take w :: chunksOf w d (l.drop w)

/-- Modelled from the spec: serialized HLL layout = configuration (`m`)
followed by the raw register payload. -/
def serializeHLL (h : HyperLogLog) : List Nat := h.m :: h.registers

/-- Modelled from the spec: parse the configuration, validate the payload
length, fail with `MalformedInput` otherwise. -/
def deserializeHLL (buf : List Nat) : Except Err HyperLogLog :=
  match buf with
  | [] => .error .MalformedInput
  | m :: rest =>
    if rest.length = m then .ok ⟨m, rest⟩ else .error .MalformedInput

/-- Modelled from the spec: serialized Bloom layout = configuration
(`n_bits`, `k`) followed by the bit payload. -/
def serializeBloom (b : BloomFilter) : List Nat :=
  b.n_bits :: b.k :: b.bits.map (fun x => if x then 1 else 0)

/-- Modelled from the spec: parse the Bloom configuration and bit payload. -/
def deserializeBloom (buf : List Nat) : Except Err BloomFilter :=
  match buf with
  | n :: k :: rest =>
    if rest.length = n then .ok ⟨n, k, rest.map (fun v => v == 1)⟩
    else .error .MalformedInput
  | _ => .error .MalformedInput

/-- Modelled from the spec: serialized MinHash layout = configuration
(`num_perm`) followed by the coefficient pairs and the signature payload. -/
def serializeMinHash (s : MinHash) : List Nat :=
  s.num_perm :: (flattenPairs s.coeffs ++ s.signature)

/-- Modelled from the spec: parse the MinHash configuration, coefficients
and signature. -/
def deserializeMinHash (buf : List Nat) : Except Err MinHash :=
  match buf with
  | [] => .error .MalformedInput
  | n :: rest =>
    if rest.length = 3 * n then
      .ok ⟨n, unflattenPairs (rest.take (2 * n)), rest.drop (2 * n)⟩
    else .error .MalformedInput

/-- Modelled from the spec: serialized CMS layout = configuration
(`width`, `depth`) followed by the row-major counter payload. -/
def serializeCMS (c : CountMinSketch) : List Nat :=
  c.width :: c.depth :: c.table.flatten

/-- Modelled from the spec: parse the CMS configuration and counters. -/
def deserializeCMS (buf : List Nat) : Except Err CountMinSketch :=
  match buf with
  | w :: d :: rest =>
    if rest.length = d * w then .ok ⟨w, d, chunksOf w d rest⟩
    else .error .MalformedInput
  | _ => .error .MalformedInput

/-- Modelled from the spec: serialized t-Digest layout = configuration
(`δ`) followed by the centroid payload. -/
def serializeTD (t : TDigest) : List ℚ :=
  t.delta :: flattenPairs t.centroids

/-- Modelled from the spec: parse the t-Digest configuration and
centroids. -/
def deserializeTD (buf : List ℚ) : Except Err TDigest :=
  match buf with
  | [] => .error .MalformedInput
  | d :: rest =>
    if rest.length % 2 = 0 then .ok ⟨d, unflattenPairs rest⟩
    else .error .MalformedInput

/-- Modelled from the spec: `update(item, increment)` with a possibly
negative increment fails with `MalformedInput`, otherwise updates. -/
def cmsUpdateChecked {α : Type} (hash : Nat → α → Nat) (cms : CountMinSketch)
    (x : α) (inc : Int) : Except Err CountMinSketch :=
  if inc < 0 then .error .MalformedInput
  else .ok (cmsUpdate hash cms x inc.toNat)

/-- Whether a fallible operation failed. -/
def isFailure {σ : Type} (r : Except Err σ) : Bool :=
  match r with
  | .ok _ => false
  | .error _ => true

/-- The caller's state after a fallible operation: the new state on
success, the unchanged prior state on failure. -/
def orKeep {σ : Type} (s : σ) (r : Except Err σ) : σ :=
  match r with
  | .ok s' => s'
  | .error _ => s

lemma splitSpace_chars {l : List Char} {w : List Char} {c : Char}
    (hw : w ∈ splitSpace l) (hc : c ∈ w) : c ∈ l ∧ c ≠ ' ' := by
  induction l generalizing w with
  | nil =>
    simp [splitSpace] at hw
    subst hw
    simp at hc
  | cons c₀ rest ih =>
    by_cases h0 : c₀ = ' '
    · subst h0
      simp [splitSpace] at hw
      rcases hw with hw | hw
      · subst hw; simp at hc
      · rcases ih hw hc with ⟨h1, h2⟩
        exact ⟨List.mem_cons_of_mem _ h1, h2⟩
    · rcases hsplit : splitSpace rest with _ | ⟨w', ws⟩
      · simp [splitSpace, h0, hsplit] at hw
        subst hw
        simp at hc
        subst hc
        exact ⟨List.mem_cons_self _ _, h0⟩
      · simp only [splitSpace, if_neg h0, hsplit] at hw
        rcases List.mem_cons.mp hw with hw | hw
        · subst hw
          rcases List.mem_cons.mp hc with hc | hc
          · subst hc; exact ⟨List.mem_cons_self _ _, h0⟩
          · have hw' : w' ∈ splitSpace rest := by
              rw [hsplit]; exact List.mem_cons_self _ _
            rcases ih hw' hc with ⟨h1, h2⟩
            exact ⟨List.mem_cons_of_mem _ h1, h2⟩
        · have hw' : w ∈ splitSpace rest := by
            rw [hsplit]; exact List.mem_cons_of_mem _ hw
          rcases ih hw' hc with ⟨h1, h2⟩
          exact ⟨List.mem_cons_of_mem _ h1, h2⟩

lemma subLetters_mem {text : List Char} {c : Char}
    (h : c ∈ subLetters text) (hne : c ≠ ' ') : isAsciiLetter c = true := by
  rcases List.mem_map.mp h with ⟨c', _, hc'⟩
  by_cases hl : isAsciiLetter c' = true
  · rw [← hc', if_pos hl]; exact hl
  · rw [← hc', if_neg hl] at hne
    exact absurd rfl hne

/-- Claim C10: every token returned by `clean_words` is a non-empty string
consisting only of ASCII letters. -/
theorem clean_words_tokens (text : List Char) (w : List Char)
    (hw : w ∈ clean_words text) : 0 < w.length ∧ w.all isAsciiLetter = true := by
  unfold clean_words at hw
  rcases List.mem_filter.mp hw with ⟨hmem, hlen⟩
  constructor
  · simpa using hlen
  · rw [List.all_eq_true]
    intro c hc
    rcases splitSpace_chars hmem hc with ⟨h1, h2⟩
    exact subLetters_mem h1 h2

/-- Witness for C10 at a concrete input. -/
theorem clean_words_tokens_witness :
    0 < (['a', 'b'] : List Char).length ∧
      (['a', 'b'] : List Char).all isAsciiLetter = true :=
  clean_words_tokens ['a', 'b', '1', ' ', 'c'] ['a', 'b'] (by decide)

lemma setBit_length (l : List Bool) (i : Nat) :
    (setBit l i).length = l.length := List.length_set l i true

lemma getD_setBit_mono {l : List Bool} {j : Nat} (i : Nat)
    (h : l.getD j false = true) : (setBit l i).getD j false = true := by
  unfold setBit
  by_cases hij : i = j
  · subst hij
    by_cases hlt : i < l.length
    · simp [List.getD_eq_getElem?_getD, List.getElem?_set_self hlt]
    · rw [List.set_eq_of_length_le (Nat.le_of_not_lt hlt)]
      exact h
  · rwa [List.getD_eq_getElem?_getD, List.getElem?_set_ne hij,
      ← List.getD_eq_getElem?_getD]

lemma getD_setBit_self {l : List Bool} {i : Nat} (h : i < l.length) :
    (setBit l i).getD i false = true := by
  simp [setBit, List.getD_eq_getElem?_getD, List.getElem?_set_self h]

lemma foldl_setBit_length (ps : List Nat) (l : List Bool) :
    (ps.foldl setBit l).length = l.length := by
  induction ps generalizing l with
  | nil => rfl
  | cons p ps ih => rw [List.foldl_cons, ih, setBit_length]

lemma foldl_setBit_mono {ps : List Nat} {l : List Bool} {j : Nat}
    (h : l.getD j false = true) : (ps.foldl setBit l).getD j false = true := by
  induction ps generalizing l with
  | nil => exact h
  | cons p ps ih => exact ih (getD_setBit_mono p h)

lemma foldl_setBit_sets {ps : List Nat} {l : List Bool} {j : Nat}
    (hj : j ∈ ps) (hlt : j < l.length) :
    (ps.foldl setBit l).getD j false = true := by
  induction ps generalizing l with
  | nil => simp at hj
  | cons p ps ih =>
    rcases List.mem_cons.mp hj with hj | hj
    · subst hj
      rw [List.foldl_cons]
      exact foldl_setBit_mono (getD_setBit_self hlt)
    · exact ih hj (by rwa [setBit_length])

lemma bfAdd_n_bits {α : Type} (hash : Nat → α → Nat) (bf : BloomFilter)
    (x : α) : (bfAdd hash bf x).n_bits = bf.n_bits := rfl

lemma bfAdd_k {α : Type} (hash : Nat → α → Nat) (bf : BloomFilter)
    (x : α) : (bfAdd hash bf x).k = bf.k := rfl

lemma bfAdd_length {α : Type} (hash : Nat → α → Nat) (bf : BloomFilter)
    (x : α) : (bfAdd hash bf x).bits.length = bf.bits.length :=
  foldl_setBit_length _ _

lemma bfPositions_config {α : Type} (hash : Nat → α → Nat)
    {bf bf' : BloomFilter} (hn : bf'.n_bits = bf.n_bits) (hk : bf'.k = bf.k)
    (x : α) : bfPositions hash bf' x = bfPositions hash bf x := by
  unfold bfPositions
  rw [hn, hk]

lemma bfContains_bfAdd_self {α : Type} (hash : Nat → α → Nat)
    (bf : BloomFilter) (x : α) (hlen : bf.bits.length = bf.n_bits)
    (hpos : 0 < bf.n_bits) : bfContains hash (bfAdd hash bf x) x = true := by
  unfold bfContains
  rw [bfPositions_config hash (bfAdd_n_bits hash bf x) (bfAdd_k hash bf x)]
  rw [List.all_eq_true]
  intro i hi
  rcases List.mem_map.mp hi with ⟨seed, _, hseed⟩
  have hilt : i < bf.bits.length := by
    rw [hlen, ← hseed]; exact Nat.mod_lt _ hpos
  exact foldl_setBit_sets hi hilt

lemma bfContains_mono_add {α : Type} (hash : Nat → α → Nat)
    (bf : BloomFilter) (x y : α) (h : bfContains hash bf x = true) :
    bfContains hash (bfAdd hash bf y) x = true := by
  unfold bfContains at h ⊢
  rw [bfPositions_config hash (bfAdd_n_bits hash bf y) (bfAdd_k hash bf y)]
  rw [List.all_eq_true] at h ⊢
  intro i hi
  exact foldl_setBit_mono (h i hi)

lemma bfContains_mono_addAll {α : Type} (hash : Nat → α → Nat)
    (bf : BloomFilter) (x : α) (ys : List α)
    (h : bfContains hash bf x = true) :
    bfContains hash (bfAddAll hash bf ys) x = true := by
  induction ys generalizing bf with
  | nil => exact h
  | cons y ys ih => exact ih (bfAdd hash bf y) (bfContains_mono_add hash bf x y h)

/-- Claim C1: for every hash family, every valid Bloom filter configuration
(bit array of the configured positive size) and every sequence of `add`
operations, every added item satisfies `contains = true` afterwards: the
Bloom filter never returns a false negative. -/
theorem bloom_no_false_negative {α : Type} (hash : Nat → α → Nat)
    (bf : BloomFilter) (hlen : bf.bits.length = bf.n_bits)
    (hpos : 0 < bf.n_bits) (xs : List α) (x : α) (hx : x ∈ xs) :
    bfContains hash (bfAddAll hash bf xs) x = true := by
  induction xs generalizing bf with
  | nil => simp at hx
  | cons y ys ih =>
    have hstep : bfAddAll hash bf (y :: ys) = bfAddAll hash (bfAdd hash bf y) ys := rfl
    rcases List.mem_cons.mp hx with hx | hx
    · subst hx
      rw [hstep]
      exact bfContains_mono_addAll hash _ x ys
        (bfContains_bfAdd_self hash bf x hlen hpos)
    · rw [hstep]
      exact ih (bfAdd hash bf y) (by rw [bfAdd_length, hlen]; rfl) hpos hx

/-- Witness for C1 at a concrete configuration, stream and item. -/
theorem bloom_no_false_negative_witness :
    bfContains (fun seed x => seed + x)
      (bfAddAll (fun seed x => seed + x)
        ⟨8, 2, List.replicate 8 false⟩ [3, 5]) 3 = true :=
  bloom_no_false_negative (fun seed x => seed + x)
    ⟨8, 2, List.replicate 8 false⟩ (by decide) (by decide) [3, 5] 3 (by decide)

lemma bump_length (row : List Nat) (j inc : Nat) :
    (bump row j inc).length = row.length := List.length_set ..

lemma getD_bump_self {row : List Nat} {j : Nat} (inc : Nat)
    (h : j < row.length) : (bump row j inc).getD j 0 = row.getD j 0 + inc := by
  simp [bump, List.getD_eq_getElem?_getD, List.getElem?_set_self h]

lemma getD_bump_le (row : List Nat) (j j' inc : Nat) :
    row.getD j 0 ≤ (bump row j' inc).getD j 0 := by
  unfold bump
  by_cases hij : j' = j
  · subst hij
    by_cases hlt : j' < row.length
    · simp only [List.getD_eq_getElem?_getD, List.getElem?_set_self hlt,
        Option.getD_some]
      exact Nat.le_add_right _ _
    · rw [List.set_eq_of_length_le (Nat.le_of_not_lt hlt)]
  · simp only [List.getD_eq_getElem?_getD, List.getElem?_set_ne hij]
    exact Nat.le_refl _

lemma updRows_shape {α : Type} (hash : Nat → α → Nat) {width : Nat} (x : α)
    (inc : Nat) :
    ∀ (r : Nat) (rows : List (List Nat)),
      (∀ row ∈ rows, row.length = width) →
      ∀ row' ∈ updRows hash width x inc r rows, row'.length = width := by
  intro r rows
  induction rows generalizing r with
  | nil => intro _ row' h'; simp [updRows] at h'
  | cons row rest ih =>
    intro hlen row' h'
    rcases List.mem_cons.mp h' with h' | h'
    · subst h'
      rw [bump_length]
      exact hlen row (List.mem_cons_self _ _)
    · exact ih (r + 1) (fun q hq => hlen q (List.mem_cons_of_mem _ hq)) row' h'

lemma rowVals_updRows_self {α : Type} (hash : Nat → α → Nat) {width : Nat}
    (hw : 0 < width) (x : α) (inc : Nat) :
    ∀ (r : Nat) (rows : List (List Nat)),
      (∀ row ∈ rows, row.length = width) →
      List.Forall₂ (fun a b => a + inc ≤ b)
        (rowVals hash width x r rows)
        (rowVals hash width x r (updRows hash width x inc r rows)) := by
  intro r rows
  induction rows generalizing r with
  | nil => intro _; simp [rowVals, updRows]
  | cons row rest ih =>
    intro hlen
    rw [updRows, rowVals, rowVals]
    refine List.Forall₂.cons ?_ (ih (r + 1) (fun q hq => hlen q (List.mem_cons_of_mem _ hq)))
    have hj : hash r x % width < row.length := by
      rw [hlen row (List.mem_cons_self _ _)]
      exact Nat.mod_lt _ hw
    rw [getD_bump_self inc hj]

lemma rowVals_updRows_le {α : Type} (hash : Nat → α → Nat) (width : Nat)
    (x y : α) (inc : Nat) :
    ∀ (r : Nat) (rows : List (List Nat)),
      List.Forall₂ (· ≤ ·)
        (rowVals hash width x r rows)
        (rowVals hash width x r (updRows hash width y inc r rows)) := by
  intro r rows
  induction rows generalizing r with
  | nil => simp [rowVals, updRows]
  | cons row rest ih =>
    rw [updRows, rowVals, rowVals]
    exact List.Forall₂.cons (getD_bump_le row _ _ inc) (ih (r + 1))

lemma forall2_chain {R S T : Nat → Nat → Prop}
    (h : ∀ a b c, R a b → S b c → T a c) :
    ∀ {l1 l2 l3 : List Nat}, List.Forall₂ R l1 l2 → List.Forall₂ S l2 l3 →
      List.Forall₂ T l1 l3 := by
  intro l1 l2 l3 h12 h23
  induction h12 generalizing l3 with
  | nil =>
    cases h23
    exact List.Forall₂.nil
  | cons hab htl ih =>
    cases h23 with
    | cons hbc htl' => exact List.Forall₂.cons (h _ _ _ hab hbc) (ih htl')

lemma forall2_right_mem {R : Nat → Nat → Prop} :
    ∀ {l1 l2 : List Nat}, List.Forall₂ R l1 l2 → ∀ b ∈ l2, ∃ a ∈ l1, R a b := by
  intro l1 l2 h
  induction h with
  | nil => intro b hb; simp at hb
  | cons hab htl ih =>
    intro b hb
    rcases List.mem_cons.mp hb with hb | hb
    · subst hb
      exact ⟨_, List.mem_cons_self _ _, hab⟩
    · rcases ih b hb with ⟨a, ha, hr⟩
      exact ⟨a, List.mem_cons_of_mem _ ha, hr⟩

lemma listMin_ge {c : Nat} :
    ∀ {l : List Nat}, l ≠ [] → (∀ v ∈ l, c ≤ v) → c ≤ listMin l := by
  intro l hne hall
  rcases l with _ | ⟨v, vs⟩
  · exact absurd rfl hne
  · rw [listMin]
    have hv : c ≤ v := hall v (List.mem_cons_self _ _)
    have hvs : ∀ u ∈ vs, c ≤ u := fun u hu => hall u (List.mem_cons_of_mem _ hu)
    clear hall hne
    induction vs generalizing v with
    | nil => exact hv
    | cons u us ih =>
      rw [List.foldl_cons]
      exact ih (min v u)
        (Nat.le_min.mpr ⟨hv, hvs u (List.mem_cons_self _ _)⟩)
        (fun w hw => hvs w (List.mem_cons_of_mem _ hw))

lemma updAllRows_invariant {α : Type} [DecidableEq α] (hash : Nat → α → Nat)
    {width : Nat} (hw : 0 < width) (x : α) :
    ∀ (ups : List (α × Nat)) (rows : List (List Nat)),
      (∀ row ∈ rows, row.length = width) →
      List.Forall₂ (fun a b => a + trueCount x ups ≤ b)
        (rowVals hash width x 0 rows)
        (rowVals hash width x 0 (updAllRows hash width ups rows)) := by
  intro ups
  induction ups with
  | nil =>
    intro rows _
    rw [updAllRows, List.foldl_nil]
    have : ∀ l : List Nat, List.Forall₂ (fun a b => a + trueCount x ([] : List (α × Nat)) ≤ b) l l := by
      intro l
      induction l with
      | nil => exact List.Forall₂.nil
      | cons v vs ihl => exact List.Forall₂.cons (by simp [trueCount]) ihl
    exact this _
  | cons p ups ih =>
    intro rows hlen
    have hstep : updAllRows hash width (p :: ups) rows =
        updAllRows hash width ups (updRows hash width p.1 p.2 0 rows) := rfl
    rw [hstep, trueCount]
    have hshape := updRows_shape hash p.1 p.2 0 rows hlen
    have hrest := ih (updRows hash width p.1 p.2 0 rows) hshape
    by_cases hpx : p.1 = x
    · rw [if_pos hpx]
      subst hpx
      have hfirst := rowVals_updRows_self hash hw p.1 p.2 0 rows hlen
      refine forall2_chain ?_ hfirst hrest
      intro a b c h1 h2
      omega
    · rw [if_neg hpx, Nat.zero_add]
      have hfirst := rowVals_updRows_le hash width x p.1 p.2 0 rows
      refine forall2_chain ?_ hfirst hrest
      intro a b c h1 h2
      omega

lemma cmsUpdateAll_spec {α : Type} (hash : Nat → α → Nat)
    (cms : CountMinSketch) (ups : List (α × Nat)) :
    (cmsUpdateAll hash cms ups).width = cms.width ∧
      (cmsUpdateAll hash cms ups).table =
        updAllRows hash cms.width ups cms.table := by
  induction ups generalizing cms with
  | nil => exact ⟨rfl, rfl⟩
  | cons p ups ih =>
    have hstep : cmsUpdateAll hash cms (p :: ups) =
        cmsUpdateAll hash (cmsUpdate hash cms p.1 p.2) ups := rfl
    rcases ih (cmsUpdate hash cms p.1 p.2) with ⟨h1, h2⟩
    exact ⟨by rw [hstep, h1]; rfl, by rw [hstep, h2]; rfl⟩

lemma rowVals_ne_nil {α : Type} (hash : Nat → α → Nat) (width : Nat) (x : α)
    (r : Nat) {rows : List (List Nat)} (h : rows ≠ []) :
    rowVals hash width x r rows ≠ [] := by
  rcases rows with _ | ⟨row, rest⟩
  · exact absurd rfl h
  · rw [rowVals]
    exact List.cons_ne_nil _ _

/-- Claim C2: for every item and every stream of `update` calls with
positive increments, the Count-Min Sketch estimate is at least the true
accumulated count of that item: the error is one-sided. -/
theorem cms_estimate_ge_trueCount {α : Type} [DecidableEq α]
    (hash : Nat → α → Nat) (cms : CountMinSketch) (hw : 0 < cms.width)
    (hshape : ∀ row ∈ cms.table, row.length = cms.width)
    (hdep : cms.table ≠ []) (ups : List (α × Nat))
    (hpos : ∀ p ∈ ups, 0 < p.2) (x : α) :
    trueCount x ups ≤ cmsEstimate hash (cmsUpdateAll hash cms ups) x := by
  rcases cmsUpdateAll_spec hash cms ups with ⟨hwidth, htable⟩
  unfold cmsEstimate
  rw [hwidth, htable]
  have hinv := updAllRows_invariant hash hw x ups cms.table hshape
  apply listMin_ge
  · have hlen := List.Forall₂.length_eq hinv
    intro hnil
    rw [hnil] at hlen
    simp only [List.length_nil] at hlen
    exact rowVals_ne_nil hash cms.width x 0 hdep (List.length_eq_zero.mp hlen)
  · intro v hv
    rcases forall2_right_mem hinv v hv with ⟨a, _, hr⟩
    exact le_trans (Nat.le_add_left _ _) hr

/-- Witness for C2 at a concrete sketch, stream and item. -/
theorem cms_estimate_ge_trueCount_witness :
    trueCount 7 [(7, 2), (9, 1), (7, 3)] ≤
      cmsEstimate (fun seed x => seed * 31 + x)
        (cmsUpdateAll (fun seed x => seed * 31 + x)
          ⟨5, 3, [List.replicate 5 0, List.replicate 5 0, List.replicate 5 0]⟩
          [(7, 2), (9, 1), (7, 3)]) 7 :=
  cms_estimate_ge_trueCount (fun seed x => seed * 31 + x)
    ⟨5, 3, [List.replicate 5 0, List.replicate 5 0, List.replicate 5 0]⟩
    (by decide) (by decide) (by decide) [(7, 2), (9, 1), (7, 3)]
    (by decide) 7

lemma matchCount_le_left (s1 s2 : List Nat) :
    matchCount s1 s2 ≤ s1.length := by
  unfold matchCount
  calc ((s1.zip s2).filter (fun p => p.1 = p.2)).length
      ≤ (s1.zip s2).length := List.length_filter_le _ _
    _ ≤ s1.length := by rw [List.length_zip]; exact Nat.min_le_left _ _

/-- Claim C5: for two MinHash signatures built with equal `num_perm` and
identical coefficient sets, `jaccard` returns the number of agreeing slots
divided by `num_perm`, a value in the closed interval [0, 1]. -/
theorem mh_jaccard_spec (m1 m2 : MinHash) (hnp : m1.num_perm = m2.num_perm)
    (hc : m1.coeffs = m2.coeffs)
    (hs1 : m1.signature.length = m1.num_perm)
    (hs2 : m2.signature.length = m2.num_perm) (hpos : 0 < m1.num_perm) :
    mhJaccard m1 m2 =
      .ok ((matchCount m1.signature m2.signature : ℚ) / (m1.num_perm : ℚ)) ∧
    0 ≤ (matchCount m1.signature m2.signature : ℚ) / (m1.num_perm : ℚ) ∧
    (matchCount m1.signature m2.signature : ℚ) / (m1.num_perm : ℚ) ≤ 1 := by
  have hnppos : (0 : ℚ) < (m1.num_perm : ℚ) := by exact_mod_cast hpos
  refine ⟨?_, ?_, ?_⟩
  · unfold mhJaccard
    rw [if_pos hnp]
  · apply div_nonneg (Nat.cast_nonneg _) (Nat.cast_nonneg _)
  · rw [div_le_one hnppos]
    have h := matchCount_le_left m1.signature m2.signature
    rw [hs1] at h
    exact_mod_cast h

/-- Witness for C5 at a concrete pair of signatures. -/
theorem mh_jaccard_spec_witness :
    mhJaccard ⟨2, [(1, 2), (3, 4)], [5, 9]⟩ ⟨2, [(1, 2), (3, 4)], [5, 7]⟩ =
      .ok ((matchCount [5, 9] [5, 7] : ℚ) / (2 : Nat)) ∧
    0 ≤ (matchCount [5, 9] [5, 7] : ℚ) / (2 : Nat) ∧
    (matchCount [5, 9] [5, 7] : ℚ) / (2 : Nat) ≤ 1 :=
  mh_jaccard_spec ⟨2, [(1, 2), (3, 4)], [5, 9]⟩ ⟨2, [(1, 2), (3, 4)], [5, 7]⟩
    (by decide) (by decide) (by decide) (by decide) (by decide)

/-- Claim C6: `create(ε)` fails with `InvalidConfig` exactly when `ε` is not
strictly between 0 and 1, and on success allocates `m` zero registers with
`m = next_power_of_two(ceil((1.04/ε)^2))`. -/
theorem hll_create_spec (eps : ℚ) :
    (hllCreate eps = .error .InvalidConfig ↔ ¬(0 < eps ∧ eps < 1)) ∧
    (∀ h : HyperLogLog, hllCreate eps = .ok h →
      h.m = nextPowTwo (⌈((104 : ℚ) / 100 / eps) ^ 2⌉.toNat) ∧
      h.registers = List.replicate h.m 0) := by
  unfold hllCreate
  by_cases hcond : 0 < eps ∧ eps < 1
  · rw [if_pos hcond]
    constructor
    · constructor
      · intro h; exact absurd h (by simp)
      · intro h; exact absurd hcond h
    · intro h hh
      injection hh with hh
      subst hh
      exact ⟨rfl, rfl⟩
  · rw [if_neg hcond]
    constructor
    · exact ⟨fun _ => hcond, fun _ => rfl⟩
    · intro h hh
      exact absurd hh (by simp)

/-- Witness for C6: a rejected and an accepted concrete configuration. -/
theorem hll_create_spec_witness :
    hllCreate 2 = .error .InvalidConfig ∧
      (⟨8, List.replicate 8 0⟩ : HyperLogLog).registers =
        List.replicate (⟨8, List.replicate 8 0⟩ : HyperLogLog).m 0 := by
  constructor
  · exact (hll_create_spec 2).1.mpr (by norm_num)
  · refine ((hll_create_spec (1 / 2)).2 ⟨8, List.replicate 8 0⟩ ?_).2
    unfold hllCreate
    rw [if_pos (by norm_num)]
    have hval : ((104 : ℚ) / 100 / (1 / 2)) ^ 2 = 2704 / 625 := by norm_num
    rw [hval]
    have h5 : (⌈(2704 : ℚ) / 625⌉ : ℤ) = 5 := by
      rw [Int.ceil_eq_iff]
      norm_num
    rw [h5]
    rfl

lemma tdAdd_ne_nil (td : TDigest) (value weight : ℚ) :
    (tdAdd td value weight).centroids ≠ [] := by
  unfold tdAdd
  rcases hcs : td.centroids with _ | ⟨c0, cs0⟩
  · exact List.cons_ne_nil _ _
  · dsimp only
    split
    · apply List.ne_nil_of_length_pos
      rw [List.Perm.length_eq (List.perm_insertionSort _ _), List.length_set]
      exact Nat.succ_pos _
    · apply List.ne_nil_of_length_pos
      rw [List.orderedInsert_length]
      exact Nat.succ_pos _

lemma tdAddAll_ne_nil (td : TDigest) (samples : List (ℚ × ℚ))
    (h : samples ≠ []) : (tdAddAll td samples).centroids ≠ [] := by
  induction samples generalizing td with
  | nil => exact absurd rfl h
  | cons p rest ih =>
    have hstep : tdAddAll td (p :: rest) = tdAddAll (tdAdd td p.1 p.2) rest := rfl
    rw [hstep]
    rcases rest with _ | ⟨p', rest'⟩
    · exact tdAdd_ne_nil td p.1 p.2
    · exact ih (tdAdd td p.1 p.2) (List.cons_ne_nil _ _)

/-- Claim C7: with `0 ≤ q ≤ 1`, `quantile(q)` on a digest built by a stream
of `add` calls fails with `EmptyDigest` iff the stream was empty, and on a
non-empty digest returns the cumulative-weight linear interpolation between
centroid means. -/
theorem td_quantile_empty_spec (delta : ℚ) (samples : List (ℚ × ℚ)) (q : ℚ)
    (hq0 : 0 ≤ q) (hq1 : q ≤ 1) :
    (tdQuantile (tdAddAll (tdCreate delta) samples) q =
        .error .EmptyDigest ↔ samples = []) ∧
    (samples ≠ [] → tdQuantile (tdAddAll (tdCreate delta) samples) q =
        .ok (tdQuantileRaw (tdAddAll (tdCreate delta) samples) q)) := by
  constructor
  · constructor
    · intro herr
      by_contra hne
      have hcent := tdAddAll_ne_nil (tdCreate delta) samples hne
      unfold tdQuantile at herr
      rw [if_neg hcent] at herr
      exact absurd herr (by simp)
    · intro hsamp
      subst hsamp
      rfl
  · intro hne
    have hcent := tdAddAll_ne_nil (tdCreate delta) samples hne
    unfold tdQuantile
    rw [if_neg hcent]

/-- Witness for C7: a one-sample digest answers, the empty digest fails. -/
theorem td_quantile_empty_spec_witness :
    (tdQuantile (tdAddAll (tdCreate 1) [((2 : ℚ), (1 : ℚ))]) (1 / 2) =
        .error .EmptyDigest ↔ [((2 : ℚ), (1 : ℚ))] = []) ∧
    ([((2 : ℚ), (1 : ℚ))] ≠ [] →
      tdQuantile (tdAddAll (tdCreate 1) [((2 : ℚ), (1 : ℚ))]) (1 / 2) =
        .ok (tdQuantileRaw (tdAddAll (tdCreate 1) [((2 : ℚ), (1 : ℚ))]) (1 / 2))) :=
  td_quantile_empty_spec 1 [((2 : ℚ), (1 : ℚ))] (1 / 2) (by norm_num) (by norm_num)

lemma chain_centers (cs : List (ℚ × ℚ)) (acc : ℚ)
    (hs : cs.Chain' (fun a b => a.1 ≤ b.1)) (hww : ∀ c ∈ cs, 0 < c.2) :
    (centers acc cs).Chain' (fun a b => a.1 < b.1 ∧ a.2 ≤ b.2) := by
  induction cs generalizing acc with
  | nil => simp [centers]
  | cons c1 rest ih =>
    obtain ⟨m1, w1⟩ := c1
    rcases rest with _ | ⟨⟨m2, w2⟩, rest'⟩
    · simp [centers]
    · rcases List.chain'_cons.mp hs with ⟨h12, htl⟩
      have hw1 : 0 < w1 := hww (m1, w1) (List.mem_cons_self _ _)
      have hw2 : 0 < w2 :=
        hww (m2, w2) (List.mem_cons_of_mem _ (List.mem_cons_self _ _))
      rw [centers, centers]
      refine List.chain'_cons.mpr ⟨⟨by dsimp only; linarith, h12⟩, ?_⟩
      rw [← centers]
      exact ih (acc + w1) htl
        (fun c hc => hww c (List.mem_cons_of_mem _ hc))

lemma pwlin_ge_head (t : ℚ) (p m : ℚ) (pts : List (ℚ × ℚ))
    (hch : ((p, m) :: pts).Chain' (fun a b => a.1 < b.1 ∧ a.2 ≤ b.2)) :
    m ≤ pwlin t ((p, m) :: pts) := by
  induction pts generalizing p m with
  | nil => rw [pwlin]
  | cons pc pts' ih =>
    obtain ⟨p2, m2⟩ := pc
    rcases List.chain'_cons.mp hch with ⟨⟨hplt, hmle⟩, htl⟩
    rw [pwlin]
    by_cases h1 : t ≤ p
    · rw [if_pos h1]
    · rw [if_neg h1]
      by_cases h2 : t ≤ p2
      · rw [if_pos h2]
        have hnn : 0 ≤ (t - p) / (p2 - p) * (m2 - m) := by
          apply mul_nonneg
          · apply div_nonneg <;> dsimp only at hplt <;> linarith
          · linarith
        linarith
      · rw [if_neg h2]
        exact le_trans hmle (ih p2 m2 htl)

lemma pwlin_mono {t1 t2 : ℚ} (h : t1 ≤ t2) :
    ∀ pts : List (ℚ × ℚ),
      pts.Chain' (fun a b => a.1 < b.1 ∧ a.2 ≤ b.2) →
      pwlin t1 pts ≤ pwlin t2 pts := by
  intro pts
  induction pts with
  | nil => intro _; simp [pwlin]
  | cons c1 rest ih =>
    obtain ⟨p1, m1⟩ := c1
    rcases rest with _ | ⟨⟨p2, m2⟩, rest'⟩
    · intro _
      rw [pwlin, pwlin]
    · intro hch
      rcases List.chain'_cons.mp hch with ⟨⟨hplt, hmle⟩, htl⟩
      dsimp only at hplt hmle
      by_cases h1a : t1 ≤ p1
      · calc pwlin t1 ((p1, m1) :: (p2, m2) :: rest') = m1 := by
              rw [pwlin, if_pos h1a]
          _ ≤ pwlin t2 ((p1, m1) :: (p2, m2) :: rest') :=
              pwlin_ge_head t2 p1 m1 _ hch
      · have ht2p1 : ¬t2 ≤ p1 := fun hc => h1a (le_trans h hc)
        have hd : 0 < p2 - p1 := by linarith
        by_cases h1b : t1 ≤ p2
        · by_cases h2b : t2 ≤ p2
          · rw [pwlin, if_neg h1a, if_pos h1b, pwlin, if_neg ht2p1, if_pos h2b]
            have hfr : (t1 - p1) / (p2 - p1) ≤ (t2 - p1) / (p2 - p1) :=
              (div_le_div_iff_of_pos_right hd).mpr (by linarith)
            have hmul := mul_le_mul_of_nonneg_right hfr
              (by linarith : (0 : ℚ) ≤ m2 - m1)
            linarith
          · rw [pwlin, if_neg h1a, if_pos h1b]
            have hR : pwlin t2 ((p1, m1) :: (p2, m2) :: rest') =
                pwlin t2 ((p2, m2) :: rest') := by
              rw [pwlin, if_neg ht2p1, if_neg h2b]
            rw [hR]
            have htail := pwlin_ge_head t2 p2 m2 rest' htl
            have hfr : (t1 - p1) / (p2 - p1) ≤ 1 := by
              rw [div_le_one hd]; linarith
            have hmul := mul_le_mul_of_nonneg_right hfr
              (by linarith : (0 : ℚ) ≤ m2 - m1)
            linarith
        · have h2b : ¬t2 ≤ p2 := fun hc => h1b (le_trans h hc)
          rw [pwlin, if_neg h1a, if_neg h1b, pwlin, if_neg ht2p1, if_neg h2b]
          exact ih htl

lemma totalWeight_nonneg (cs : List (ℚ × ℚ)) (hww : ∀ c ∈ cs, 0 < c.2) :
    0 ≤ totalWeight cs := by
  unfold totalWeight
  apply List.sum_nonneg
  intro x hx
  rcases List.mem_map.mp hx with ⟨c, hc, rfl⟩
  exact le_of_lt (hww c hc)

/-- Claim C8: on a fixed non-empty well-formed digest (centroids sorted by
mean, positive weights) the quantile function is non-decreasing: for
`0 ≤ q1 ≤ q2 ≤ 1`, both queries succeed and `quantile(q1) ≤ quantile(q2)`. -/
theorem td_quantile_monotone (td : TDigest)
    (hsort : td.centroids.Chain' (fun a b => a.1 ≤ b.1))
    (hww : ∀ c ∈ td.centroids, 0 < c.2) (hne : td.centroids ≠ [])
    (q1 q2 : ℚ) (hq0 : 0 ≤ q1) (hq12 : q1 ≤ q2) (hq3 : q2 ≤ 1) :
    tdQuantile td q1 = .ok (tdQuantileRaw td q1) ∧
    tdQuantile td q2 = .ok (tdQuantileRaw td q2) ∧
    tdQuantileRaw td q1 ≤ tdQuantileRaw td q2 := by
  refine ⟨by unfold tdQuantile; rw [if_neg hne],
    by unfold tdQuantile; rw [if_neg hne], ?_⟩
  unfold tdQuantileRaw
  exact pwlin_mono
    (mul_le_mul_of_nonneg_right hq12 (totalWeight_nonneg td.centroids hww))
    (centers 0 td.centroids) (chain_centers td.centroids 0 hsort hww)

/-- Witness for C8 at a concrete digest and quantile pair. -/
theorem td_quantile_monotone_witness :
    tdQuantile ⟨1, [(0, 1), (10, 1)]⟩ 0 =
      .ok (tdQuantileRaw ⟨1, [(0, 1), (10, 1)]⟩ 0) ∧
    tdQuantile ⟨1, [(0, 1), (10, 1)]⟩ 1 =
      .ok (tdQuantileRaw ⟨1, [(0, 1), (10, 1)]⟩ 1) ∧
    tdQuantileRaw ⟨1, [(0, 1), (10, 1)]⟩ 0 ≤
      tdQuantileRaw ⟨1, [(0, 1), (10, 1)]⟩ 1 :=
  td_quantile_monotone ⟨1, [(0, 1), (10, 1)]⟩
    (by simp [List.chain'_cons])
    (by intro c hc; fin_cases hc <;> norm_num)
    (by simp) 0 1 (by norm_num) (by norm_num) (by norm_num)

lemma zipWith_comm_of_comm {α : Type} (f : α → α → α)
    (hf : ∀ a b, f a b = f b a) :
    ∀ l1 l2 : List α, List.zipWith f l1 l2 = List.zipWith f l2 l1 := by
  intro l1
  induction l1 with
  | nil => intro l2; cases l2 <;> rfl
  | cons a l1 ih =>
    intro l2
    cases l2 with
    | nil => rfl
    | cons b l2 => rw [List.zipWith_cons_cons, List.zipWith_cons_cons, hf, ih]

lemma zipWith_assoc_of_assoc {α : Type} (f : α → α → α)
    (hf : ∀ a b c, f (f a b) c = f a (f b c)) :
    ∀ l1 l2 l3 : List α,
      List.zipWith f (List.zipWith f l1 l2) l3 =
        List.zipWith f l1 (List.zipWith f l2 l3) := by
  intro l1
  induction l1 with
  | nil => intro l2 l3; rfl
  | cons a l1 ih =>
    intro l2 l3
    cases l2 with
    | nil => rfl
    | cons b l2 =>
      cases l3 with
      | nil => rfl
      | cons c l3 =>
        rw [List.zipWith_cons_cons, List.zipWith_cons_cons,
          List.zipWith_cons_cons, List.zipWith_cons_cons, hf, ih]

lemma zipWith_self_eq_map {α : Type} (f : α → α → α) (g : α → α)
    (hfg : ∀ a, f a a = g a) :
    ∀ l : List α, List.zipWith f l l = l.map g := by
  intro l
  induction l with
  | nil => rfl
  | cons a l ih => rw [List.zipWith_cons_cons, List.map_cons, hfg, ih]

lemma insertionSort_perm_eq {l1 l2 : List (ℚ × ℚ)} (hp : l1.Perm l2) :
    List.insertionSort centLe l1 = List.insertionSort centLe l2 :=
  List.eq_of_perm_of_sorted
    ((List.perm_insertionSort centLe l1).trans
      (hp.trans (List.perm_insertionSort centLe l2).symm))
    (List.sorted_insertionSort centLe l1)
    (List.sorted_insertionSort centLe l2)

/-- Claim C4: for structurally compatible instances, merge is commutative
and associative for all five structures; for HyperLogLog, Bloom filter and
MinHash merging the same snapshot twice equals merging it once; Count-Min
Sketch merge is element-wise sum, so merging a sketch with a copy of itself
doubles every counter. -/
theorem merge_algebra
    (h1 h2 h3 : HyperLogLog) (hm12 : h1.m = h2.m) (hm23 : h2.m = h3.m)
    (b1 b2 b3 : BloomFilter) (hb12 : b1.n_bits = b2.n_bits ∧ b1.k = b2.k)
    (hb23 : b2.n_bits = b3.n_bits ∧ b2.k = b3.k)
    (s1 s2 s3 : MinHash)
    (hs12 : s1.num_perm = s2.num_perm ∧ s1.coeffs = s2.coeffs)
    (hs23 : s2.num_perm = s3.num_perm ∧ s2.coeffs = s3.coeffs)
    (c1 c2 c3 : CountMinSketch)
    (hc12 : c1.width = c2.width ∧ c1.depth = c2.depth)
    (hc23 : c2.width = c3.width ∧ c2.depth = c3.depth)
    (t1 t2 t3 : TDigest) (ht12 : t1.delta = t2.delta)
    (ht23 : t2.delta = t3.delta) :
    (hllMerge h1 h2 = hllMerge h2 h1 ∧
      mergeThen (hllMerge h1 h2) (fun x => hllMerge x h3) =
        mergeThen (hllMerge h2 h3) (fun x => hllMerge h1 x) ∧
      mergeThen (hllMerge h1 h2) (fun x => hllMerge x h2) = hllMerge h1 h2) ∧
    (bfMerge b1 b2 = bfMerge b2 b1 ∧
      mergeThen (bfMerge b1 b2) (fun x => bfMerge x b3) =
        mergeThen (bfMerge b2 b3) (fun x => bfMerge b1 x) ∧
      mergeThen (bfMerge b1 b2) (fun x => bfMerge x b2) = bfMerge b1 b2) ∧
    (mhMerge s1 s2 = mhMerge s2 s1 ∧
      mergeThen (mhMerge s1 s2) (fun x => mhMerge x s3) =
        mergeThen (mhMerge s2 s3) (fun x => mhMerge s1 x) ∧
      mergeThen (mhMerge s1 s2) (fun x => mhMerge x s2) = mhMerge s1 s2) ∧
    (cmsMerge c1 c2 = cmsMerge c2 c1 ∧
      mergeThen (cmsMerge c1 c2) (fun x => cmsMerge x c3) =
        mergeThen (cmsMerge c2 c3) (fun x => cmsMerge c1 x) ∧
      cmsMerge c1 c1 =
        .ok ⟨c1.width, c1.depth, c1.table.map (List.map (fun v => 2 * v))⟩) ∧
    (tdMerge t1 t2 = tdMerge t2 t1 ∧
      mergeThen (tdMerge t1 t2) (fun x => tdMerge x t3) =
        mergeThen (tdMerge t2 t3) (fun x => tdMerge t1 x)) := by
  have hm13 : h1.m = h3.m := hm12.trans hm23
  have e12 : hllMerge h1 h2 =
      .ok ⟨h1.m, List.zipWith max h1.registers h2.registers⟩ := by
    unfold hllMerge; rw [if_pos hm12]
  have e23 : hllMerge h2 h3 =
      .ok ⟨h2.m, List.zipWith max h2.registers h3.registers⟩ := by
    unfold hllMerge; rw [if_pos hm23]
  have f12 : bfMerge b1 b2 =
      .ok ⟨b1.n_bits, b1.k, List.zipWith or b1.bits b2.bits⟩ := by
    unfold bfMerge; rw [if_pos hb12]
  have f23 : bfMerge b2 b3 =
      .ok ⟨b2.n_bits, b2.k, List.zipWith or b2.bits b3.bits⟩ := by
    unfold bfMerge; rw [if_pos hb23]
  have g12 : mhMerge s1 s2 =
      .ok ⟨s1.num_perm, s1.coeffs, List.zipWith min s1.signature s2.signature⟩ := by
    unfold mhMerge; rw [if_pos hs12]
  have g23 : mhMerge s2 s3 =
      .ok ⟨s2.num_perm, s2.coeffs, List.zipWith min s2.signature s3.signature⟩ := by
    unfold mhMerge; rw [if_pos hs23]
  have k12 : cmsMerge c1 c2 =
      .ok ⟨c1.width, c1.depth,
        List.zipWith (List.zipWith (· + ·)) c1.table c2.table⟩ := by
    unfold cmsMerge; rw [if_pos hc12]
  have k23 : cmsMerge c2 c3 =
      .ok ⟨c2.width, c2.depth,
        List.zipWith (List.zipWith (· + ·)) c2.table c3.table⟩ := by
    unfold cmsMerge; rw [if_pos hc23]
  have d12 : tdMerge t1 t2 =
      .ok ⟨t1.delta, List.insertionSort centLe (t1.centroids ++ t2.centroids)⟩ := by
    unfold tdMerge; rw [if_pos ht12]
  have d23 : tdMerge t2 t3 =
      .ok ⟨t2.delta, List.insertionSort centLe (t2.centroids ++ t3.centroids)⟩ := by
    unfold tdMerge; rw [if_pos ht23]
  refine ⟨⟨?_, ?_, ?_⟩, ⟨?_, ?_, ?_⟩, ⟨?_, ?_, ?_⟩, ⟨?_, ?_, ?_⟩, ?_, ?_⟩
  · unfold hllMerge
    rw [if_pos hm12, if_pos hm12.symm,
      zipWith_comm_of_comm max Nat.max_comm h1.registers h2.registers, hm12]
  · rw [e12, e23]
    simp only [mergeThen]
    unfold hllMerge
    dsimp only
    rw [if_pos hm13, if_pos hm12,
      zipWith_assoc_of_assoc max Nat.max_assoc]
  · rw [e12]
    simp only [mergeThen]
    unfold hllMerge
    dsimp only
    rw [if_pos hm12, zipWith_assoc_of_assoc max Nat.max_assoc,
      zipWith_self_eq_map max id (fun a => Nat.max_self a) h2.registers,
      List.map_id]
  · unfold bfMerge
    rw [if_pos hb12, if_pos ⟨hb12.1.symm, hb12.2.symm⟩,
      zipWith_comm_of_comm or Bool.or_comm b1.bits b2.bits, hb12.1, hb12.2]
  · rw [f12, f23]
    simp only [mergeThen]
    unfold bfMerge
    dsimp only
    rw [if_pos ⟨hb12.1.trans hb23.1, hb12.2.trans hb23.2⟩,
      if_pos ⟨hb12.1, hb12.2⟩,
      zipWith_assoc_of_assoc or Bool.or_assoc]
  · rw [f12]
    simp only [mergeThen]
    unfold bfMerge
    dsimp only
    rw [if_pos ⟨hb12.1, hb12.2⟩, zipWith_assoc_of_assoc or Bool.or_assoc,
      zipWith_self_eq_map or id (fun a => Bool.or_self a) b2.bits,
      List.map_id]
  · unfold mhMerge
    rw [if_pos hs12, if_pos ⟨hs12.1.symm, hs12.2.symm⟩,
      zipWith_comm_of_comm min Nat.min_comm s1.signature s2.signature,
      hs12.1, hs12.2]
  · rw [g12, g23]
    simp only [mergeThen]
    unfold mhMerge
    dsimp only
    rw [if_pos ⟨hs12.1.trans hs23.1, hs12.2.trans hs23.2⟩,
      if_pos ⟨hs12.1, hs12.2⟩,
      zipWith_assoc_of_assoc min Nat.min_assoc]
  · rw [g12]
    simp only [mergeThen]
    unfold mhMerge
    dsimp only
    rw [if_pos ⟨hs12.1, hs12.2⟩, zipWith_assoc_of_assoc min Nat.min_assoc,
      zipWith_self_eq_map min id (fun a => Nat.min_self a) s2.signature,
      List.map_id]
  · unfold cmsMerge
    rw [if_pos hc12, if_pos ⟨hc12.1.symm, hc12.2.symm⟩,
      zipWith_comm_of_comm (List.zipWith (· + ·))
        (fun r1 r2 => zipWith_comm_of_comm _ Nat.add_comm r1 r2)
        c1.table c2.table,
      hc12.1, hc12.2]
  · rw [k12, k23]
    simp only [mergeThen]
    unfold cmsMerge
    dsimp only
    rw [if_pos ⟨hc12.1.trans hc23.1, hc12.2.trans hc23.2⟩,
      if_pos ⟨hc12.1, hc12.2⟩,
      zipWith_assoc_of_assoc (List.zipWith (· + ·))
        (fun r1 r2 r3 => zipWith_assoc_of_assoc _ Nat.add_assoc r1 r2 r3)]
  · unfold cmsMerge
    rw [if_pos ⟨rfl, rfl⟩,
      zipWith_self_eq_map (List.zipWith (· + ·)) (List.map (fun v => 2 * v))
        (fun row => zipWith_self_eq_map _ _ (fun a => by omega) row)
        c1.table]
  · unfold tdMerge
    rw [if_pos ht12, if_pos ht12.symm,
      insertionSort_perm_eq (List.perm_append_comm), ht12]
  · rw [d12, d23]
    simp only [mergeThen]
    unfold tdMerge
    dsimp only
    rw [if_pos (ht12.trans ht23), if_pos ht12]
    have hp : List.Perm
        ((List.insertionSort centLe (t1.centroids ++ t2.centroids)) ++
          t3.centroids)
        (t1.centroids ++
          List.insertionSort centLe (t2.centroids ++ t3.centroids)) := by
      have h1p := (List.perm_insertionSort centLe
        (t1.centroids ++ t2.centroids)).append_right t3.centroids
      rw [List.append_assoc] at h1p
      exact h1p.trans
        (List.Perm.append_left _ (List.perm_insertionSort centLe _)).symm
    rw [insertionSort_perm_eq hp]

/-- Witness for C4: the Count-Min self-merge doubling conjunct at a
concrete sketch. -/
theorem merge_algebra_witness :
    cmsMerge ⟨2, 1, [[1, 2]]⟩ ⟨2, 1, [[1, 2]]⟩ =
      .ok ⟨(⟨2, 1, [[1, 2]]⟩ : CountMinSketch).width,
        (⟨2, 1, [[1, 2]]⟩ : CountMinSketch).depth,
        (⟨2, 1, [[1, 2]]⟩ : CountMinSketch).table.map
          (List.map (fun v => 2 * v))⟩ :=
  (merge_algebra ⟨1, []⟩ ⟨1, []⟩ ⟨1, []⟩ rfl rfl
    ⟨1, 1, []⟩ ⟨1, 1, []⟩ ⟨1, 1, []⟩ ⟨rfl, rfl⟩ ⟨rfl, rfl⟩
    ⟨1, [], []⟩ ⟨1, [], []⟩ ⟨1, [], []⟩ ⟨rfl, rfl⟩ ⟨rfl, rfl⟩
    ⟨2, 1, [[1, 2]]⟩ ⟨2, 1, [[1, 2]]⟩ ⟨2, 1, [[1, 2]]⟩ ⟨rfl, rfl⟩ ⟨rfl, rfl⟩
    ⟨1, []⟩ ⟨1, []⟩ ⟨1, []⟩ rfl rfl).2.2.2.1.2.2

lemma unflattenPairs_flattenPairs {α : Type} (l : List (α × α)) :
    unflattenPairs (flattenPairs l) = l := by
  induction l with
  | nil => rfl
  | cons p rest ih =>
    obtain ⟨a, b⟩ := p
    rw [flattenPairs]
    rcases hfl : flattenPairs rest with _ | ⟨x, xs⟩ <;>
      rw [unflattenPairs, ← hfl, ih]

lemma flattenPairs_length {α : Type} (l : List (α × α)) :
    (flattenPairs l).length = 2 * l.length := by
  induction l with
  | nil => rfl
  | cons p rest ih =>
    obtain ⟨a, b⟩ := p
    rw [flattenPairs, List.length_cons, List.length_cons, ih,
      List.length_cons]
    ring

lemma chunksOf_flatten {α : Type} {w : Nat} :
    ∀ rows : List (List α), (∀ r ∈ rows, r.length = w) →
      chunksOf w rows.length rows.flatten = rows := by
  intro rows
  induction rows with
  | nil => intro _; rfl
  | cons row rest ih =>
    intro hlen
    have hrow : row.length = w := hlen row (List.mem_cons_self _ _)
    rw [List.length_cons, List.flatten_cons, chunksOf,
      List.take_left' hrow, List.drop_left' hrow,
      ih (fun r hr => hlen r (List.mem_cons_of_mem _ hr))]

lemma flatten_length_const {α : Type} :
    ∀ rows : List (List α), (∀ r ∈ rows, r.length = w) →
      rows.flatten.length = rows.length * w := by
  intro rows
  induction rows with
  | nil => intro _; simp
  | cons row rest ih =>
    intro hlen
    rw [List.flatten_cons, List.length_append,
      hlen row (List.mem_cons_self _ _),
      ih (fun r hr => hlen r (List.mem_cons_of_mem _ hr)),
      List.length_cons]
    ring

lemma bits_decode_encode (bits : List Bool) :
    (bits.map (fun x => if x then 1 else 0)).map (fun v => v == 1) = bits := by
  induction bits with
  | nil => rfl
  | cons b rest ih =>
    rw [List.map_cons, List.map_cons, ih]
    cases b <;> rfl

/-- Claim C3: for every one of the five structures in a well-formed state,
`deserialize(serialize(x))` succeeds and yields exactly `x`, so every
subsequent query returns identical results and every merge `x` could do
still succeeds. -/
theorem serialize_roundtrip
    (h : HyperLogLog) (hh : h.registers.length = h.m)
    (b : BloomFilter) (hb : b.bits.length = b.n_bits)
    (s : MinHash) (hsc : s.coeffs.length = s.num_perm)
    (hss : s.signature.length = s.num_perm)
    (c : CountMinSketch) (hcd : c.table.length = c.depth)
    (hcw : ∀ r ∈ c.table, r.length = c.width)
    (t : TDigest) :
    deserializeHLL (serializeHLL h) = .ok h ∧
    deserializeBloom (serializeBloom b) = .ok b ∧
    deserializeMinHash (serializeMinHash s) = .ok s ∧
    deserializeCMS (serializeCMS c) = .ok c ∧
    deserializeTD (serializeTD t) = .ok t ∧
    (∀ y : HyperLogLog,
      hllMerge (orKeep h (deserializeHLL (serializeHLL h))) y = hllMerge h y) ∧
    (∀ (hash : Nat → Nat → Nat) (item : Nat),
      bfContains hash (orKeep b (deserializeBloom (serializeBloom b))) item =
        bfContains hash b item) ∧
    (∀ s2 : MinHash,
      mhJaccard (orKeep s (deserializeMinHash (serializeMinHash s))) s2 =
        mhJaccard s s2) ∧
    (∀ (hash : Nat → Nat → Nat) (item : Nat),
      cmsEstimate hash (orKeep c (deserializeCMS (serializeCMS c))) item =
        cmsEstimate hash c item) ∧
    (∀ q : ℚ,
      tdQuantile (orKeep t (deserializeTD (serializeTD t))) q =
        tdQuantile t q) := by
  have hr1 : deserializeHLL (serializeHLL h) = .ok h := by
    rw [serializeHLL, deserializeHLL, if_pos hh]
  have hr2 : deserializeBloom (serializeBloom b) = .ok b := by
    rw [serializeBloom, deserializeBloom]
    rw [if_pos (by rw [List.length_map]; exact hb)]
    rw [bits_decode_encode]
  have hr3 : deserializeMinHash (serializeMinHash s) = .ok s := by
    rw [serializeMinHash, deserializeMinHash]
    have hflat : (flattenPairs s.coeffs).length = 2 * s.num_perm := by
      rw [flattenPairs_length, hsc]
    have hlen : (flattenPairs s.coeffs ++ s.signature).length = 3 * s.num_perm := by
      rw [List.length_append, hflat, hss]
      ring
    rw [if_pos hlen, List.take_left' hflat, List.drop_left' hflat,
      unflattenPairs_flattenPairs]
  have hr4 : deserializeCMS (serializeCMS c) = .ok c := by
    rw [serializeCMS, deserializeCMS]
    have hlen : c.table.flatten.length = c.depth * c.width := by
      rw [flatten_length_const c.table hcw, hcd]
    rw [if_pos hlen, ← hcd, chunksOf_flatten c.table hcw, hcd]
  have hr5 : deserializeTD (serializeTD t) = .ok t := by
    rw [serializeTD, deserializeTD]
    have heven : (flattenPairs t.centroids).length % 2 = 0 := by
      rw [flattenPairs_length]
      omega
    rw [if_pos heven, unflattenPairs_flattenPairs]
  refine ⟨hr1, hr2, hr3, hr4, hr5, ?_, ?_, ?_, ?_, ?_⟩
  · intro y; rw [hr1]; rfl
  · intro hash item; rw [hr2]; rfl
  · intro s2; rw [hr3]; rfl
  · intro hash item; rw [hr4]; rfl
  · intro q; rw [hr5]; rfl

/-- Witness for C3 at concrete instances of all five structures. -/
theorem serialize_roundtrip_witness :
    deserializeHLL (serializeHLL ⟨2, [3, 1]⟩) = .ok ⟨2, [3, 1]⟩ ∧
    deserializeBloom (serializeBloom ⟨2, 1, [true, false]⟩) =
      .ok ⟨2, 1, [true, false]⟩ ∧
    deserializeMinHash (serializeMinHash ⟨1, [(2, 3)], [7]⟩) =
      .ok ⟨1, [(2, 3)], [7]⟩ ∧
    deserializeCMS (serializeCMS ⟨2, 1, [[4, 5]]⟩) = .ok ⟨2, 1, [[4, 5]]⟩ ∧
    deserializeTD (serializeTD ⟨1, [(2, 1)]⟩) = .ok ⟨1, [(2, 1)]⟩ := by
  have T := serialize_roundtrip ⟨2, [3, 1]⟩ (by decide) ⟨2, 1, [true, false]⟩
    (by decide) ⟨1, [(2, 3)], [7]⟩ (by decide) (by decide) ⟨2, 1, [[4, 5]]⟩
    (by decide) (by decide) ⟨1, [(2, 1)]⟩
  exact ⟨T.1, T.2.1, T.2.2.1, T.2.2.2.1, T.2.2.2.2.1⟩

/-- Claim C9: every fallible operation of the five structures either
returns a well-defined value or fails with its declared error kind
(`InvalidConfig`, `IncompatibleMerge`, `EmptyDigest`, `MalformedInput`),
and a failed operation leaves the structure's prior state unmodified. -/
theorem sketch_ops_total :
    (∀ eps : ℚ, (∃ x, hllCreate eps = .ok x) ∨
      hllCreate eps = .error .InvalidConfig) ∧
    (∀ h1 h2 : HyperLogLog, (∃ x, hllMerge h1 h2 = .ok x) ∨
      hllMerge h1 h2 = .error .IncompatibleMerge) ∧
    (∀ b1 b2 : BloomFilter, (∃ x, bfMerge b1 b2 = .ok x) ∨
      bfMerge b1 b2 = .error .IncompatibleMerge) ∧
    (∀ s1 s2 : MinHash, (∃ q, mhJaccard s1 s2 = .ok q) ∨
      mhJaccard s1 s2 = .error .IncompatibleMerge) ∧
    (∀ s1 s2 : MinHash, (∃ x, mhMerge s1 s2 = .ok x) ∨
      mhMerge s1 s2 = .error .IncompatibleMerge) ∧
    (∀ c1 c2 : CountMinSketch, (∃ x, cmsMerge c1 c2 = .ok x) ∨
      cmsMerge c1 c2 = .error .IncompatibleMerge) ∧
    (∀ (hash : Nat → Nat → Nat) (cms : CountMinSketch) (x : Nat) (inc : Int),
      (∃ y, cmsUpdateChecked hash cms x inc = .ok y) ∨
      cmsUpdateChecked hash cms x inc = .error .MalformedInput) ∧
    (∀ (t : TDigest) (q : ℚ), (∃ v, tdQuantile t q = .ok v) ∨
      tdQuantile t q = .error .EmptyDigest) ∧
    (∀ t1 t2 : TDigest, (∃ x, tdMerge t1 t2 = .ok x) ∨
      tdMerge t1 t2 = .error .IncompatibleMerge) ∧
    (∀ buf : List Nat, (∃ x, deserializeHLL buf = .ok x) ∨
      deserializeHLL buf = .error .MalformedInput) ∧
    (∀ buf : List Nat, (∃ x, deserializeBloom buf = .ok x) ∨
      deserializeBloom buf = .error .MalformedInput) ∧
    (∀ buf : List Nat, (∃ x, deserializeMinHash buf = .ok x) ∨
      deserializeMinHash buf = .error .MalformedInput) ∧
    (∀ buf : List Nat, (∃ x, deserializeCMS buf = .ok x) ∨
      deserializeCMS buf = .error .MalformedInput) ∧
    (∀ buf : List ℚ, (∃ x, deserializeTD buf = .ok x) ∨
      deserializeTD buf = .error .MalformedInput) ∧
    (∀ (σ : Type) (s : σ) (r : Except Err σ),
      isFailure r = true → orKeep s r = s) := by
  refine ⟨?_, ?_, ?_, ?_, ?_, ?_, ?_, ?_, ?_, ?_, ?_, ?_, ?_, ?_, ?_⟩
  · intro eps
    unfold hllCreate
    split
    · exact Or.inl ⟨_, rfl⟩
    · exact Or.inr rfl
  · intro h1 h2
    unfold hllMerge
    split
    · exact Or.inl ⟨_, rfl⟩
    · exact Or.inr rfl
  · intro b1 b2
    unfold bfMerge
    split
    · exact Or.inl ⟨_, rfl⟩
    · exact Or.inr rfl
  · intro s1 s2
    unfold mhJaccard
    split
    · exact Or.inl ⟨_, rfl⟩
    · exact Or.inr rfl
  · intro s1 s2
    unfold mhMerge
    split
    · exact Or.inl ⟨_, rfl⟩
    · exact Or.inr rfl
  · intro c1 c2
    unfold cmsMerge
    split
    · exact Or.inl ⟨_, rfl⟩
    · exact Or.inr rfl
  · intro hash cms x inc
    unfold cmsUpdateChecked
    split
    · exact Or.inr rfl
    · exact Or.inl ⟨_, rfl⟩
  · intro t q
    unfold tdQuantile
    split
    · exact Or.inr rfl
    · exact Or.inl ⟨_, rfl⟩
  · intro t1 t2
    unfold tdMerge
    split
    · exact Or.inl ⟨_, rfl⟩
    · exact Or.inr rfl
  · intro buf
    unfold deserializeHLL
    rcases buf with _ | ⟨m, rest⟩
    · exact Or.inr rfl
    · dsimp only
      split
      · exact Or.inl ⟨_, rfl⟩
      · exact Or.inr rfl
  · intro buf
    unfold deserializeBloom
    rcases buf with _ | ⟨n, _ | ⟨k, rest⟩⟩
    · exact Or.inr rfl
    · exact Or.inr rfl
    · dsimp only
      split
      · exact Or.inl ⟨_, rfl⟩
      · exact Or.inr rfl
  · intro buf
    unfold deserializeMinHash
    rcases buf with _ | ⟨n, rest⟩
    · exact Or.inr rfl
    · dsimp only
      split
      · exact Or.inl ⟨_, rfl⟩
      · exact Or.inr rfl
  · intro buf
    unfold deserializeCMS
    rcases buf with _ | ⟨w, _ | ⟨d, rest⟩⟩
    · exact Or.inr rfl
    · exact Or.inr rfl
    · dsimp only
      split
      · exact Or.inl ⟨_, rfl⟩
      · exact Or.inr rfl
  · intro buf
    unfold deserializeTD
    rcases buf with _ | ⟨d, rest⟩
    · exact Or.inr rfl
    · dsimp only
      split
      · exact Or.inl ⟨_, rfl⟩
      · exact Or.inr rfl
  · intro σ s r hr
    rcases r with e | s'
    · rfl
    · exact absurd hr (by simp [isFailure])

/-- Witness for C9: an out-of-range configuration is rejected and the
state convention keeps the prior state on failure. -/
theorem sketch_ops_total_witness :
    ((∃ x, hllCreate 2 = .ok x) ∨ hllCreate 2 = .error .InvalidConfig) ∧
    (isFailure (.error .IncompatibleMerge : Except Err HyperLogLog) = true →
      orKeep ⟨1, []⟩ (.error .IncompatibleMerge : Except Err HyperLogLog) = ⟨1, []⟩) :=
  ⟨sketch_ops_total.1 2,
   sketch_ops_total.2.2.2.2.2.2.2.2.2.2.2.2.2.2 HyperLogLog ⟨1, []⟩
     (.error .IncompatibleMerge)⟩
